import Mathlib

/-!
Verification of the portfolio risk core (Asset / Position / Portfolio,
correlation-matrix validation, variance engine) from the C++ sources.
The shallow embedding uses exact rationals for the C++ doubles; the
portfolio's `std::map<std::string, Position>` is an association list whose
entries are kept in ascending key order, matching the map's iteration order.
-/

namespace PortfolioCore

/-- Error kinds thrown by the core: `std::invalid_argument` and
`std::out_of_range` (the spec's NotFound). -/
inductive Err where
  | invalidArgument (msg : String)
  | notFound (msg : String)
  deriving Repr, DecidableEq

/-- `Asset`: name, price, expected return mu, volatility sigma
(Asset.hpp / Asset.cpp). -/
structure Asset where
  name : String
  price : ℚ
  mu : ℚ
  sigma : ℚ
  deriving Repr, DecidableEq

/-- `Position`: a quantity of one asset (Portfolio.hpp). -/
structure Position where
  asset : Asset
  quantity : ℚ
  deriving Repr, DecidableEq

/-- `Position::value`: `asset.price() * quantity`. -/
def Position.value (p : Position) : ℚ := p.asset.price * p.quantity

/-- The portfolio's entry list, standing for `std::map<std::string, Position>`
iterated in ascending key order. -/
abbrev Entries := List (String × Position)

/-- `positions_.find(k)`: the position stored under key `k`, if any. -/
def findEntry (l : Entries) (k : String) : Option Position :=
  match l with
  | [] => none
  | (k', v) :: t => if k' = k then some v else findEntry t k

/-- `positions_.emplace(k, v)` for a key not yet present: the map places the
new entry at its ordered position. -/
def mapInsert (l : Entries) (k : String) (v : Position) : Entries :=
  match l with
  | [] => [(k, v)]
  | (k', v') :: t => if k < k' then (k, v) :: (k', v') :: t
                     else (k', v') :: mapInsert t k v

/-- In-place mutation of the position stored under `k`
(`it->second.quantity += ...` style updates). -/
def mapUpdate (l : Entries) (k : String) (f : Position → Position) : Entries :=
  match l with
  | [] => []
  | (k', v) :: t => if k' = k then (k', f v) :: t else (k', v) :: mapUpdate t k f

/-- `positions_.erase(it)`: removes the entry under `k`. -/
def mapErase (l : Entries) (k : String) : Entries :=
  match l with
  | [] => []
  | (k', v) :: t => if k' = k then t else (k', v) :: mapErase t k

/-- Tolerance `eps = 1e-12` used by `Portfolio::addPosition` for the mu/sigma
consistency check. -/
def epsParam : ℚ := 1 / 10 ^ 12

/-- `Portfolio::addPosition`, translated statement by statement; the returned
pair is the portfolio state after the call together with the thrown error, if
any (the C++ method mutates `this` and throws). -/
def addPosition (p : Entries) (a : Asset) (quantity : ℚ) : Entries × Option Err :=
  if quantity ≤ 0 then
    (p, some (.invalidArgument "addPosition: quantity must be > 0."))
  else
    match findEntry p a.name with
    | none => (mapInsert p a.name ⟨a, quantity⟩, none)
    | some pos =>
      if epsParam < |pos.asset.mu - a.mu| ∨ epsParam < |pos.asset.sigma - a.sigma| then
        (p, some (.invalidArgument "addPosition: asset parameters mismatch for same name (mu/sigma)."))
      else
        (mapUpdate p a.name (fun q => ⟨q.asset, q.quantity + quantity⟩), none)

/-- `Portfolio::removePosition`, translated statement by statement, in the
same state-and-thrown-error form as `addPosition`. -/
def removePosition (p : Entries) (assetName : String) (quantity : ℚ) :
    Entries × Option Err :=
  if quantity ≤ 0 then
    (p, some (.invalidArgument "removePosition: quantity must be > 0."))
  else
    match findEntry p assetName with
    | none => (p, some (.notFound ("removePosition: asset not found: " ++ assetName)))
    | some pos =>
      if pos.quantity < quantity then
        (p, some (.invalidArgument "removePosition: quantity exceeds current position."))
      else
        let newEntries := mapUpdate p assetName (fun q => ⟨q.asset, q.quantity - quantity⟩)
        if pos.quantity - quantity ≤ 0 then (mapErase newEntries assetName, none)
        else (newEntries, none)

/-- `addPosition` viewed as a fallible computation: either the new portfolio
or the thrown error. -/
def addPositionE (p : Entries) (a : Asset) (quantity : ℚ) : Except Err Entries :=
  match addPosition p a quantity with
  | (p', none) => .ok p'
  | (_, some e) => .error e

/-- `operator+(lhs, rhs)`: copies `lhs` and calls `addPosition` for every
position of `rhs` in map (key) order; a thrown error propagates. -/
def mergePortfolios (lhs rhs : Entries) : Except Err Entries :=
  rhs.foldlM (fun out e => addPositionE out e.2.asset e.2.quantity) lhs

/-- `Portfolio::totalValue`: the sum of position values. -/
def totalValue (p : Entries) : ℚ := (p.map (fun e => e.2.value)).sum

/-- `Portfolio::expectedReturn`: value-weighted mean of asset returns, 0 when
`totalValue ≤ 0`. -/
def expectedReturn (p : Entries) : ℚ :=
  let total := totalValue p
  if total ≤ 0 then 0
  else (p.map (fun e => e.2.value / total * e.2.asset.mu)).sum

/-- `Portfolio::assetOrder`: the asset names in map iteration order. -/
def assetOrder (p : Entries) : List String := p.map Prod.fst

/-- `Portfolio::size`. -/
def portfolioSize (p : Entries) : Nat := p.length

/-- Matrix access `corr[i][j]` (used only after the shape check, so the
defaults are never reached on validated input). -/
def mget (corr : List (List ℚ)) (i j : Nat) : ℚ := (corr.getD i []).getD j 0

/-- Symmetry tolerance `epsSym = 1e-10` of `validateCorrelationMatrix`. -/
def epsSym : ℚ := 1 / 10 ^ 10

/-- Diagonal tolerance `epsDiag = 1e-10` of `validateCorrelationMatrix`. -/
def epsDiag : ℚ := 1 / 10 ^ 10

/-- The diagonal check at row `i`: `|corr[i][i] - 1| > epsDiag` throws. -/
def checkDiag (corr : List (List ℚ)) (i : Nat) : Except Err Unit :=
  if epsDiag < |mget corr i i - 1| then
    .error (.invalidArgument "varianceApprox: correlation matrix diagonal must be 1.")
  else .ok ()

/-- The inner-loop body at `(i, j)` with `i < j`: bounds on `corr[i][j]` and
`corr[j][i]`, then symmetry. -/
def checkCell (corr : List (List ℚ)) (i j : Nat) : Except Err Unit :=
  let a := mget corr i j
  let b := mget corr j i
  if a < -1 ∨ 1 < a ∨ b < -1 ∨ 1 < b then
    .error (.invalidArgument "varianceApprox: correlation must be in [-1, 1].")
  else if epsSym < |a - b| then
    .error (.invalidArgument "varianceApprox: correlation matrix must be symmetric.")
  else .ok ()

/-- Runs a list of checks in order, stopping at the first thrown error. -/
def seqChecks : List (Except Err Unit) → Except Err Unit
  | [] => .ok ()
  | c :: t =>
    match c with
    | .error e => .error e
    | .ok _ => seqChecks t

/-- The checks performed by the two nested loops of
`validateCorrelationMatrix`, in program order: for each `i`, the diagonal
check, then the cell checks for `j = i+1, ..., n-1`. -/
def loopChecks (corr : List (List ℚ)) (n : Nat) : List (Except Err Unit) :=
  (List.range n).flatMap (fun i =>
    checkDiag corr i :: (List.range' (i + 1) (n - (i + 1))).map (checkCell corr i))

/-- `Portfolio::validateCorrelationMatrix`: shape checks, then the nested
loops (diagonal ≈ 1, all entries of every `i < j` pair in `[-1, 1]`,
symmetry within `epsSym`). -/
def validateCorrelationMatrix (corr : List (List ℚ)) (n : Nat) : Except Err Unit :=
  if corr.length ≠ n then
    .error (.invalidArgument "varianceApprox: correlation matrix wrong number of rows.")
  else if corr.any (fun row => row.length ≠ n) then
    .error (.invalidArgument "varianceApprox: correlation matrix wrong number of columns.")
  else seqChecks (loopChecks corr n)

/-- `Portfolio::varianceApprox`: 0 for an empty portfolio; otherwise
validates the matrix, returns 0 when `totalValue ≤ 0`, and else computes the
full quadratic form over the map order. -/
def varianceApprox (p : Entries) (corr : List (List ℚ)) : Except Err ℚ :=
  let n := p.length
  if n = 0 then .ok 0
  else do
    _ ← validateCorrelationMatrix corr n
    let total := totalValue p
    if total ≤ 0 then pure 0
    else
      let pos := p.map Prod.snd
      let w := pos.map (fun q => q.value / total)
      let sig := pos.map (fun q => q.asset.sigma)
      pure (((List.range n).map (fun i =>
        ((List.range n).map (fun j =>
          w.getD i 0 * w.getD j 0 * mget corr i j * sig.getD i 0 * sig.getD j 0)).sum)).sum)

/-- `Portfolio::volatilityApprox`: `sqrt(max(0, variance))`. -/
noncomputable def volatilityApprox (p : Entries) (corr : List (List ℚ)) : Except Err ℝ :=
  (varianceApprox p corr).map (fun v => Real.sqrt (max 0 (v : ℝ)))

/-- `Portfolio::varianceContributionsApprox`: the all-zero vector in the
degenerate cases, else `contribution[i] = w_i * Σ_j corr[i][j]·σ_i·σ_j·w_j`. -/
def varianceContributionsApprox (p : Entries) (corr : List (List ℚ)) :
    Except Err (List ℚ) :=
  let n := p.length
  if n = 0 then .ok (List.replicate n 0)
  else do
    _ ← validateCorrelationMatrix corr n
    let total := totalValue p
    if total ≤ 0 then pure (List.replicate n 0)
    else
      let pos := p.map Prod.snd
      let w := pos.map (fun q => q.value / total)
      let sig := pos.map (fun q => q.asset.sigma)
      pure ((List.range n).map (fun i =>
        w.getD i 0 * ((List.range n).map (fun j =>
          mget corr i j * sig.getD i 0 * sig.getD j 0 * w.getD j 0)).sum))

/-! Concrete data from the spec's test scenario. -/

/-- AAPL: price 200, mu 0.10, sigma 0.20. -/
def aapl : Asset := ⟨"AAPL", 200, 1 / 10, 1 / 5⟩

/-- BOND: price 100, mu 0.02, sigma 0.05. -/
def bond : Asset := ⟨"BOND", 100, 1 / 50, 1 / 20⟩

/-- The two-asset scenario portfolio: 10 AAPL, 20 BOND. -/
def demo : Entries := [("AAPL", ⟨aapl, 10⟩), ("BOND", ⟨bond, 20⟩)]

/-- The 2x2 identity correlation matrix. -/
def id2 : List (List ℚ) := [[1, 0], [0, 1]]

/-- A portfolio built through the public API alone: `addPosition` applied to
an initially empty portfolio for each (asset, quantity) in turn. -/
def buildPortfolio (ops : List (Asset × ℚ)) : Except Err Entries :=
  ops.foldlM (fun acc aq => addPositionE acc aq.1 aq.2) []

/-- Insertion into a key-sorted entry list (used by the spec-side formula to
state the ascending lexical asset order). -/
def sortIns (e : String × Position) : Entries → Entries
  | [] => [e]
  | f :: t => if e.1 < f.1 then e :: f :: t else f :: sortIns e t

/-- Insertion sort of the entries by asset name. -/
def sortEntries (l : Entries) : Entries := l.foldr sortIns []

/-- The spec's variance formula, written from its words: the double sum over
all pairs (i, j) of `w_i * w_j * C[i][j] * sigma_i * sigma_j`, where the
index order is the portfolio's ascending lexical asset order and
`w_i = value_i / totalValue()`. -/
def specVarianceSum (p : Entries) (corr : List (List ℚ)) : ℚ :=
  let s := sortEntries p
  let n := s.length
  let total := totalValue p
  let w := fun i => (s.map (fun e => e.2.value / total)).getD i 0
  let sig := fun i => (s.map (fun e => e.2.asset.sigma)).getD i 0
  ((List.range n).map (fun i =>
    ((List.range n).map (fun j =>
      w i * w j * mget corr i j * sig i * sig j)).sum)).sum

/-- AAPL at a later price (mu and sigma unchanged). -/
def aaplLater : Asset := ⟨"AAPL", 210, 1 / 10, 1 / 5⟩

/-- An asset reusing the name AAPL with a different mu. -/
def aaplBadMu : Asset := ⟨"AAPL", 200, 2 / 10, 1 / 5⟩

/-- A third instrument, absent from the demo portfolio. -/
def gold : Asset := ⟨"GOLD", 50, 3 / 100, 3 / 20⟩

/-- A second portfolio sharing AAPL (same mu/sigma, different price) with the
demo portfolio and bringing one new name. -/
def demoB : Entries := [("AAPL", ⟨aaplLater, 5⟩), ("GOLD", ⟨gold, 4⟩)]

/-- A non-empty portfolio whose only price is 0, so its total value is 0. -/
def zeroPricePortfolio : Entries := [("ZERO", ⟨⟨"ZERO", 0, 1 / 10, 1 / 5⟩, 5⟩)]

/-- A 1x1 matrix whose diagonal entry is far from 1: rejected by the
validator. -/
def badDiagMatrix : List (List ℚ) := [[2]]

/-- The 1x1 identity correlation matrix. -/
def id1 : List (List ℚ) := [[1]]

/-! Lemmas about the association-list operations. -/

theorem findEntry_eq_none_iff (l : Entries) (k : String) :
    findEntry l k = none ↔ k ∉ assetOrder l := by
  induction l with
  | nil => simp [findEntry, assetOrder]
  | cons e t ih =>
    obtain ⟨k', v⟩ := e
    by_cases h : k' = k
    · simp only [findEntry, if_pos h, assetOrder, List.map_cons, List.mem_cons]
      subst h
      simp
    · simp only [findEntry, if_neg h, assetOrder, List.map_cons, List.mem_cons]
      rw [ih]
      simp only [assetOrder]
      constructor
      · intro hnot hor
        rcases hor with hor | hor
        · exact h hor.symm
        · exact hnot hor
      · intro hnot hmem
        exact hnot (Or.inr hmem)

theorem findEntry_some_mem {l : Entries} {k : String} {v : Position}
    (h : findEntry l k = some v) : k ∈ assetOrder l := by
  by_contra hmem
  rw [← findEntry_eq_none_iff] at hmem
  rw [hmem] at h
  exact Option.noConfusion h

theorem findEntry_mapInsert_self (l : Entries) (k : String) (v : Position)
    (h : findEntry l k = none) : findEntry (mapInsert l k v) k = some v := by
  induction l with
  | nil => simp [mapInsert, findEntry]
  | cons e t ih =>
    obtain ⟨k', v'⟩ := e
    simp only [findEntry] at h
    by_cases hk : k' = k
    · rw [if_pos hk] at h
      exact Option.noConfusion h
    · rw [if_neg hk] at h
      by_cases hlt : k < k'
      · simp only [mapInsert]
        rw [if_pos hlt]
        simp [findEntry]
      · simp only [mapInsert]
        rw [if_neg hlt]
        simp only [findEntry, if_neg hk]
        exact ih h

theorem findEntry_mapInsert_ne (l : Entries) (k m : String) (v : Position)
    (h : m ≠ k) : findEntry (mapInsert l k v) m = findEntry l m := by
  induction l with
  | nil =>
    simp only [mapInsert, findEntry]
    rw [if_neg (fun hh => h hh.symm)]
  | cons e t ih =>
    obtain ⟨k', v'⟩ := e
    by_cases hlt : k < k'
    · simp only [mapInsert]
      rw [if_pos hlt]
      simp only [findEntry]
      rw [if_neg (fun hh => h hh.symm)]
    · simp only [mapInsert]
      rw [if_neg hlt]
      simp only [findEntry, ih]

theorem mem_mapInsert {l : Entries} {k : String} {v : Position} {e : String × Position} :
    e ∈ mapInsert l k v ↔ e = (k, v) ∨ e ∈ l := by
  induction l with
  | nil => simp [mapInsert]
  | cons f t ih =>
    by_cases hlt : k < f.1
    · simp only [mapInsert]
      obtain ⟨fk, fv⟩ := f
      rw [if_pos hlt]
      simp [List.mem_cons]
    · simp only [mapInsert]
      obtain ⟨fk, fv⟩ := f
      rw [if_neg hlt]
      simp only [List.mem_cons, ih]
      tauto

theorem findEntry_mapUpdate_self {l : Entries} {k : String} {f : Position → Position}
    {pos : Position} (h : findEntry l k = some pos) :
    findEntry (mapUpdate l k f) k = some (f pos) := by
  induction l with
  | nil => exact Option.noConfusion h
  | cons e t ih =>
    obtain ⟨k', v⟩ := e
    by_cases hk : k' = k
    · simp only [findEntry, if_pos hk] at h
      obtain rfl : v = pos := Option.some.inj h
      simp only [mapUpdate, if_pos hk, findEntry]
    · simp only [findEntry, if_neg hk] at h
      simp only [mapUpdate, if_neg hk, findEntry]
      exact ih h

theorem findEntry_mapUpdate_ne (l : Entries) (k m : String) (f : Position → Position)
    (h : m ≠ k) : findEntry (mapUpdate l k f) m = findEntry l m := by
  induction l with
  | nil => simp [mapUpdate]
  | cons e t ih =>
    obtain ⟨k', v⟩ := e
    by_cases hk : k' = k
    · simp only [mapUpdate, if_pos hk, findEntry]
      rw [if_neg (fun hh : k' = m => h (hk ▸ hh).symm),
        if_neg (fun hh : k' = m => h (hk ▸ hh).symm)]
    · simp only [mapUpdate, if_neg hk, findEntry, ih]

theorem assetOrder_mapUpdate (l : Entries) (k : String) (f : Position → Position) :
    assetOrder (mapUpdate l k f) = assetOrder l := by
  induction l with
  | nil => simp [mapUpdate]
  | cons e t ih =>
    obtain ⟨k', v⟩ := e
    by_cases hk : k' = k
    · simp only [mapUpdate, if_pos hk, assetOrder, List.map_cons]
    · simp only [mapUpdate, if_neg hk, assetOrder, List.map_cons]
      rw [show List.map Prod.fst (mapUpdate t k f) = assetOrder (mapUpdate t k f) from rfl,
        ih]
      rfl

theorem length_mapUpdate (l : Entries) (k : String) (f : Position → Position) :
    (mapUpdate l k f).length = l.length := by
  induction l with
  | nil => rfl
  | cons e t ih =>
    obtain ⟨k', v⟩ := e
    by_cases hk : k' = k <;> simp [mapUpdate, hk, ih]

theorem length_mapErase {l : Entries} {k : String} {pos : Position}
    (h : findEntry l k = some pos) : (mapErase l k).length + 1 = l.length := by
  induction l with
  | nil => simp [findEntry] at h
  | cons e t ih =>
    obtain ⟨k', v⟩ := e
    by_cases hk : k' = k
    · simp [mapErase, if_pos hk]
    · simp only [findEntry, if_neg hk] at h
      simp [mapErase, if_neg hk, ih h]

theorem findEntry_mapErase_ne (l : Entries) (k m : String) (h : m ≠ k) :
    findEntry (mapErase l k) m = findEntry l m := by
  induction l with
  | nil => simp [mapErase]
  | cons e t ih =>
    obtain ⟨k', v⟩ := e
    by_cases hk : k' = k
    · simp only [mapErase, if_pos hk, findEntry]
      rw [if_neg (fun hh : k' = m => h (hk ▸ hh).symm)]
    · simp only [mapErase, if_neg hk, findEntry, ih]

theorem findEntry_mapErase_self {l : Entries} {k : String}
    (hnd : (assetOrder l).Nodup) : findEntry (mapErase l k) k = none := by
  induction l with
  | nil => simp [mapErase, findEntry]
  | cons e t ih =>
    obtain ⟨k', v⟩ := e
    simp only [assetOrder, List.map_cons, List.nodup_cons] at hnd
    by_cases hk : k' = k
    · simp only [mapErase, if_pos hk]
      rw [findEntry_eq_none_iff]
      rw [hk] at hnd
      exact hnd.1
    · simp [mapErase, if_neg hk, findEntry, hk, ih hnd.2]

theorem mapErase_sublist (l : Entries) (k : String) : (mapErase l k).Sublist l := by
  induction l with
  | nil => simp [mapErase]
  | cons e t ih =>
    obtain ⟨k', v⟩ := e
    by_cases hk : k' = k
    · simp only [mapErase, if_pos hk]
      exact List.sublist_cons_self _ _
    · simp only [mapErase, if_neg hk]
      exact ih.cons₂ _

/-! Sortedness of the map's entry order. -/

/-- The entry list is in strictly ascending key order — the `std::map`
representation invariant. -/
def PSorted (l : Entries) : Prop := (assetOrder l).Pairwise (· < ·)

theorem PSorted_nil : PSorted [] := by simp [PSorted, assetOrder]

theorem PSorted_cons {e : String × Position} {t : Entries} :
    PSorted (e :: t) ↔ (∀ m ∈ assetOrder t, e.1 < m) ∧ PSorted t := by
  simp [PSorted, assetOrder, List.pairwise_cons]

theorem PSorted_mapInsert {l : Entries} {k : String} (v : Position)
    (hs : PSorted l) (habs : findEntry l k = none) : PSorted (mapInsert l k v) := by
  induction l with
  | nil => simp [mapInsert, PSorted, assetOrder]
  | cons e t ih =>
    obtain ⟨k', v'⟩ := e
    rw [PSorted_cons] at hs
    obtain ⟨hd, ht⟩ := hs
    simp only [findEntry] at habs
    by_cases hk : k' = k
    · rw [if_pos hk] at habs
      exact Option.noConfusion habs
    · rw [if_neg hk] at habs
      by_cases hlt : k < k'
      · simp only [mapInsert]
        rw [if_pos hlt]
        rw [PSorted_cons]
        refine ⟨?_, ?_⟩
        · intro m hm
          simp only [assetOrder, List.map_cons, List.mem_cons] at hm
          rcases hm with rfl | hm
          · exact hlt
          · exact lt_trans hlt (hd m hm)
        · rw [PSorted_cons]
          exact ⟨hd, ht⟩
      · simp only [mapInsert]
        rw [if_neg hlt]
        rw [PSorted_cons]
        refine ⟨?_, ih ht habs⟩
        intro m hm
        simp only [assetOrder, List.mem_map] at hm
        obtain ⟨b, hb, rfl⟩ := hm
        rcases mem_mapInsert.mp hb with rfl | hb
        · show k' < k
          exact lt_of_le_of_ne (not_lt.mp hlt) hk
        · exact hd b.1 (List.mem_map.mpr ⟨b, hb, rfl⟩)

theorem PSorted_mapUpdate {l : Entries} {k : String} {f : Position → Position}
    (hs : PSorted l) : PSorted (mapUpdate l k f) := by
  unfold PSorted
  rw [assetOrder_mapUpdate]
  exact hs

theorem PSorted_mapErase {l : Entries} {k : String} (hs : PSorted l) :
    PSorted (mapErase l k) := by
  unfold PSorted at *
  exact List.Pairwise.sublist ((mapErase_sublist l k).map Prod.fst) hs

theorem PSorted_nodup {l : Entries} (hs : PSorted l) : (assetOrder l).Nodup :=
  hs.imp ne_of_lt

/-! Success and failure shapes of `addPosition` seen through `addPositionE`. -/

theorem addE_ok_elim {p : Entries} {a : Asset} {q : ℚ} {p' : Entries}
    (h : addPositionE p a q = .ok p') :
    0 < q ∧
      ((findEntry p a.name = none ∧ p' = mapInsert p a.name ⟨a, q⟩) ∨
        (∃ pos, findEntry p a.name = some pos ∧
          |pos.asset.mu - a.mu| ≤ epsParam ∧ |pos.asset.sigma - a.sigma| ≤ epsParam ∧
          p' = mapUpdate p a.name (fun r => ⟨r.asset, r.quantity + q⟩))) := by
  unfold addPositionE addPosition at h
  by_cases hq : q ≤ 0
  · rw [if_pos hq] at h
    exact Except.noConfusion h
  · rw [if_neg hq] at h
    refine ⟨lt_of_not_ge hq, ?_⟩
    cases hf : findEntry p a.name with
    | none =>
      rw [hf] at h
      simp only [] at h
      exact Or.inl ⟨rfl, (Except.ok.inj h).symm⟩
    | some pos =>
      rw [hf] at h
      simp only [] at h
      by_cases hmis : epsParam < |pos.asset.mu - a.mu| ∨ epsParam < |pos.asset.sigma - a.sigma|
      · rw [if_pos hmis] at h
        exact Except.noConfusion h
      · rw [if_neg hmis] at h
        push_neg at hmis
        exact Or.inr ⟨pos, rfl, hmis.1, hmis.2, (Except.ok.inj h).symm⟩

theorem addE_ok_other_key {p : Entries} {a : Asset} {q : ℚ} {p' : Entries}
    (h : addPositionE p a q = .ok p') (m : String) (hm : m ≠ a.name) :
    findEntry p' m = findEntry p m := by
  rcases (addE_ok_elim h).2 with ⟨_, rfl⟩ | ⟨pos, _, _, _, rfl⟩
  · exact findEntry_mapInsert_ne p a.name m _ hm
  · exact findEntry_mapUpdate_ne p a.name m _ hm

theorem addE_ok_sorted {p : Entries} {a : Asset} {q : ℚ} {p' : Entries}
    (h : addPositionE p a q = .ok p') (hs : PSorted p) : PSorted p' := by
  rcases (addE_ok_elim h).2 with ⟨hf, rfl⟩ | ⟨pos, _, _, _, rfl⟩
  · exact PSorted_mapInsert _ hs hf
  · exact PSorted_mapUpdate hs

theorem sortIns_eq_cons {e : String × Position} {t : Entries}
    (h : ∀ m ∈ assetOrder t, e.1 < m) : sortIns e t = e :: t := by
  cases t with
  | nil => rfl
  | cons f t' =>
    unfold sortIns
    rw [if_pos (h f.1 (List.mem_map.mpr ⟨f, List.mem_cons_self f t', rfl⟩))]

theorem sortEntries_eq_self {l : Entries} (hs : PSorted l) : sortEntries l = l := by
  induction l with
  | nil => rfl
  | cons e t ih =>
    rw [PSorted_cons] at hs
    show sortIns e (sortEntries t) = e :: t
    rw [ih hs.2]
    exact sortIns_eq_cons hs.1

theorem sum_map_congr {α : Type} (l : List α) (f g : α → ℚ)
    (h : ∀ a ∈ l, f a = g a) : (l.map f).sum = (l.map g).sum := by
  induction l with
  | nil => rfl
  | cons a t ih =>
    simp only [List.map_cons, List.sum_cons]
    rw [h a (List.mem_cons_self a t), ih (fun b hb => h b (List.mem_cons_of_mem a hb))]

/-! Lemmas about the validator's check list. -/

theorem seqChecks_ok {cs : List (Except Err Unit)} (h : seqChecks cs = .ok ()) :
    ∀ c ∈ cs, c = .ok () := by
  induction cs with
  | nil => simp
  | cons c t ih =>
    intro d hd
    unfold seqChecks at h
    cases c with
    | error e => exact Except.noConfusion h
    | ok u =>
      obtain rfl : u = () := rfl
      rcases List.mem_cons.mp hd with rfl | hd
      · rfl
      · exact ih h d hd

theorem seqChecks_shape {cs : List (Except Err Unit)}
    (h : ∀ c ∈ cs, c = .ok () ∨ ∃ m, c = .error (Err.invalidArgument m)) :
    seqChecks cs = .ok () ∨ ∃ m, seqChecks cs = .error (Err.invalidArgument m) := by
  induction cs with
  | nil => exact Or.inl rfl
  | cons c t ih =>
    rcases h c (List.mem_cons_self c t) with hc | ⟨m, hc⟩
    · have ht := ih (fun d hd => h d (List.mem_cons_of_mem c hd))
      unfold seqChecks
      rw [hc]
      exact ht
    · unfold seqChecks
      rw [hc]
      exact Or.inr ⟨m, rfl⟩

theorem checkDiag_mem_loopChecks {corr : List (List ℚ)} {n i : Nat} (hi : i < n) :
    checkDiag corr i ∈ loopChecks corr n := by
  unfold loopChecks
  rw [List.mem_flatMap]
  exact ⟨i, List.mem_range.mpr hi, List.mem_cons_self _ _⟩

theorem checkCell_mem_loopChecks {corr : List (List ℚ)} {n i j : Nat}
    (hij : i < j) (hj : j < n) : checkCell corr i j ∈ loopChecks corr n := by
  unfold loopChecks
  rw [List.mem_flatMap]
  refine ⟨i, List.mem_range.mpr (lt_trans hij hj), List.mem_cons_of_mem _ ?_⟩
  exact List.mem_map.mpr ⟨j, List.mem_range'_1.mpr ⟨hij, by omega⟩, rfl⟩

theorem checkDiag_ok_elim {corr : List (List ℚ)} {i : Nat}
    (h : checkDiag corr i = .ok ()) : |mget corr i i - 1| ≤ epsDiag := by
  unfold checkDiag at h
  by_cases hc : epsDiag < |mget corr i i - 1|
  · rw [if_pos hc] at h
    exact Except.noConfusion h
  · exact not_lt.mp hc

theorem checkCell_ok_elim {corr : List (List ℚ)} {i j : Nat}
    (h : checkCell corr i j = .ok ()) :
    (-1 ≤ mget corr i j ∧ mget corr i j ≤ 1) ∧
      (-1 ≤ mget corr j i ∧ mget corr j i ≤ 1) := by
  unfold checkCell at h
  by_cases hb : mget corr i j < -1 ∨ 1 < mget corr i j ∨
      mget corr j i < -1 ∨ 1 < mget corr j i
  · rw [if_pos hb] at h
    exact Except.noConfusion h
  · push_neg at hb
    exact ⟨⟨hb.1, hb.2.1⟩, ⟨hb.2.2.1, hb.2.2.2⟩⟩

theorem checkDiag_shape (corr : List (List ℚ)) (i : Nat) :
    checkDiag corr i = .ok () ∨ ∃ m, checkDiag corr i = .error (Err.invalidArgument m) := by
  unfold checkDiag
  by_cases hc : epsDiag < |mget corr i i - 1|
  · rw [if_pos hc]
    exact Or.inr ⟨_, rfl⟩
  · rw [if_neg hc]
    exact Or.inl rfl

theorem checkCell_shape (corr : List (List ℚ)) (i j : Nat) :
    checkCell corr i j = .ok () ∨ ∃ m, checkCell corr i j = .error (Err.invalidArgument m) := by
  unfold checkCell
  by_cases hb : mget corr i j < -1 ∨ 1 < mget corr i j ∨
      mget corr j i < -1 ∨ 1 < mget corr j i
  · rw [if_pos hb]
    exact Or.inr ⟨_, rfl⟩
  · rw [if_neg hb]
    by_cases hs : epsSym < |mget corr i j - mget corr j i|
    · rw [if_pos hs]
      exact Or.inr ⟨_, rfl⟩
    · rw [if_neg hs]
      exact Or.inl rfl

theorem validate_ok_elim {corr : List (List ℚ)} {n : Nat}
    (h : validateCorrelationMatrix corr n = .ok ()) :
    ∀ c ∈ loopChecks corr n, c = .ok () := by
  unfold validateCorrelationMatrix at h
  by_cases h1 : corr.length ≠ n
  · rw [if_pos h1] at h
    exact Except.noConfusion h
  · rw [if_neg h1] at h
    by_cases h2 : corr.any (fun row => row.length ≠ n) = true
    · rw [if_pos h2] at h
      exact Except.noConfusion h
    · rw [if_neg h2] at h
      exact seqChecks_ok h

theorem buildAux_sorted (ops : List (Asset × ℚ)) :
    ∀ (acc p : Entries), PSorted acc →
      ops.foldlM (fun a aq => addPositionE a aq.1 aq.2) acc = .ok p → PSorted p := by
  induction ops with
  | nil =>
    intro acc p hs h
    obtain rfl : acc = p := Except.ok.inj h
    exact hs
  | cons aq t ih =>
    intro acc p hs h
    rw [List.foldlM_cons] at h
    cases hstep : addPositionE acc aq.1 aq.2 with
    | error e =>
      rw [hstep] at h
      exact absurd h (by simp [Bind.bind, Except.bind])
    | ok acc' =>
      rw [hstep] at h
      simp only [Bind.bind, Except.bind] at h
      exact ih acc' p (addE_ok_sorted hstep hs) h

theorem mergeAux_char (B : Entries) :
    ∀ (A P : Entries),
      (∀ e ∈ B, e.1 = e.2.asset.name) →
      (assetOrder B).Nodup →
      mergePortfolios A B = .ok P →
      ∀ n : String,
        (n ∉ assetOrder B → findEntry P n = findEntry A n) ∧
        (∀ pb, findEntry B n = some pb →
          (findEntry A n = none → findEntry P n = some pb) ∧
          (∀ pa, findEntry A n = some pa →
            |pa.asset.mu - pb.asset.mu| ≤ epsParam ∧
            |pa.asset.sigma - pb.asset.sigma| ≤ epsParam ∧
            findEntry P n = some ⟨pa.asset, pa.quantity + pb.quantity⟩)) := by
  induction B with
  | nil =>
    intro A P _ _ h n
    obtain rfl : A = P := Except.ok.inj h
    exact ⟨fun _ => rfl, fun pb hpb => Option.noConfusion hpb⟩
  | cons e t ih =>
    intro A P hkeys hnd h n
    have hfold := h
    unfold mergePortfolios at hfold
    simp only [List.foldlM_cons] at hfold
    have hkeyE : e.1 = e.2.asset.name := hkeys e (List.mem_cons_self e t)
    simp only [assetOrder, List.map_cons, List.nodup_cons] at hnd
    obtain ⟨enotint, hnd'⟩ := hnd
    cases hstep : addPositionE A e.2.asset e.2.quantity with
    | error err =>
      rw [hstep] at hfold
      exact absurd hfold (by simp [Bind.bind, Except.bind])
    | ok A1 =>
      rw [hstep] at hfold
      simp only [Bind.bind, Except.bind] at hfold
      have IH := ih A1 P (fun d hd => hkeys d (List.mem_cons_of_mem e hd)) hnd' hfold
      constructor
      · intro hnB
        simp only [assetOrder, List.map_cons, List.mem_cons] at hnB
        push_neg at hnB
        rw [(IH n).1 (by simpa [assetOrder] using hnB.2)]
        exact addE_ok_other_key hstep n (fun hh => hnB.1 (hh.trans hkeyE.symm))
      · intro pb hpb
        by_cases hn1 : e.1 = n
        · simp only [findEntry, if_pos hn1] at hpb
          obtain rfl : e.2 = pb := Option.some.inj hpb
          have hnt : n ∉ assetOrder t := hn1 ▸ enotint
          have hPn : findEntry P n = findEntry A1 n := (IH n).1 hnt
          have hname : e.2.asset.name = n := hkeyE ▸ hn1
          constructor
          · intro hA
            rcases (addE_ok_elim hstep).2 with ⟨hf, rfl⟩ | ⟨pos, hf, _, _, rfl⟩
            · rw [hPn, hname]
              rw [hname] at hf
              exact findEntry_mapInsert_self A n _ hf
            · rw [hname, hA] at hf
              exact Option.noConfusion hf
          · intro pa hpa
            rcases (addE_ok_elim hstep).2 with ⟨hf, rfl⟩ | ⟨pos, hf, hmu, hsig, rfl⟩
            · rw [hname, hpa] at hf
              exact Option.noConfusion hf
            · rw [hname, hpa] at hf
              obtain rfl : pa = pos := Option.some.inj hf
              refine ⟨hmu, hsig, ?_⟩
              rw [hPn, hname]
              exact findEntry_mapUpdate_self hpa
        · have hpb' : findEntry t n = some pb := by
            simpa [findEntry, hn1] using hpb
          have hA1 : findEntry A1 n = findEntry A n :=
            addE_ok_other_key hstep n (fun hh => hn1 (hkeyE ▸ hh).symm)
          have IH2 := (IH n).2 pb hpb'
          exact ⟨fun hA => IH2.1 (hA1.trans hA), fun pa hpa => IH2.2 pa (hA1.trans hpa)⟩

/-! The claims. -/

/-- C4 counterexample: the diagonal entry `1 + 1e-11` lies outside `[-1, 1]`,
yet the validator accepts the 1x1 matrix holding it, because the diagonal is
only checked to be within 1e-10 of 1 — so "fails whenever any entry
(including a diagonal entry) lies outside [-1, 1]" is false. -/
theorem validator_counterexample :
    (1 : ℚ) < mget [[1 + 1 / 10 ^ 11]] 0 0 ∧
    validateCorrelationMatrix [[1 + 1 / 10 ^ 11]] 1 = .ok () := by
  constructor
  · norm_num [mget]
  · norm_num [validateCorrelationMatrix, loopChecks, seqChecks, checkDiag,
      checkCell, mget, epsDiag, epsSym, List.range_succ, abs_of_nonneg]

/-- C4 amended: validation fails with InvalidArgument whenever an
off-diagonal entry lies outside `[-1, 1]`; a diagonal entry is instead
required to be within 1e-10 of 1 (so a diagonal entry slightly above 1 is
accepted even though it is outside `[-1, 1]`); validation only accepts or
rejects (always with InvalidArgument) and never modifies the matrix. -/
theorem validator_rejects_offdiagonal_out_of_range :
    (∀ (corr : List (List ℚ)) (n i j : Nat), i < n → j < n → i ≠ j →
      validateCorrelationMatrix corr n = .ok () →
      -1 ≤ mget corr i j ∧ mget corr i j ≤ 1) ∧
    (∀ (corr : List (List ℚ)) (n i : Nat), i < n →
      validateCorrelationMatrix corr n = .ok () →
      |mget corr i i - 1| ≤ epsDiag) ∧
    (∀ (corr : List (List ℚ)) (n : Nat),
      validateCorrelationMatrix corr n = .ok () ∨
      ∃ m, validateCorrelationMatrix corr n = .error (Err.invalidArgument m)) := by
  refine ⟨?_, ?_, ?_⟩
  · intro corr n i j hi hj hij hval
    rcases lt_or_gt_of_ne hij with hlt | hgt
    · have hc := validate_ok_elim hval _ (checkCell_mem_loopChecks hlt hj)
      exact (checkCell_ok_elim hc).1
    · have hc := validate_ok_elim hval _ (checkCell_mem_loopChecks hgt hi)
      exact (checkCell_ok_elim hc).2
  · intro corr n i hi hval
    exact checkDiag_ok_elim (validate_ok_elim hval _ (checkDiag_mem_loopChecks hi))
  · intro corr n
    unfold validateCorrelationMatrix
    by_cases h1 : corr.length ≠ n
    · rw [if_pos h1]
      exact Or.inr ⟨_, rfl⟩
    · rw [if_neg h1]
      by_cases h2 : corr.any (fun row => row.length ≠ n) = true
      · rw [if_pos h2]
        exact Or.inr ⟨_, rfl⟩
      · rw [if_neg h2]
        refine seqChecks_shape ?_
        intro c hc
        unfold loopChecks at hc
        rw [List.mem_flatMap] at hc
        obtain ⟨i, _, hc⟩ := hc
        rcases List.mem_cons.mp hc with rfl | hc
        · exact checkDiag_shape corr i
        · obtain ⟨j, _, rfl⟩ := List.mem_map.mp hc
          exact checkCell_shape corr i j

/-- Witness for the amended C4: applied to the accepted 2x2 identity matrix,
its off-diagonal entry is within bounds and its diagonal within 1e-10 of 1. -/
theorem validator_rejects_offdiagonal_out_of_range_witness :
    (-1 ≤ mget id2 0 1 ∧ mget id2 0 1 ≤ 1) ∧ |mget id2 0 0 - 1| ≤ epsDiag := by
  have hval : validateCorrelationMatrix id2 2 = .ok () := by
    norm_num [validateCorrelationMatrix, loopChecks, seqChecks, checkDiag,
      checkCell, mget, epsDiag, epsSym, id2, List.range_succ, abs_of_nonneg]
  exact ⟨validator_rejects_offdiagonal_out_of_range.1 id2 2 0 1 (by norm_num)
      (by norm_num) (by norm_num) hval,
    validator_rejects_offdiagonal_out_of_range.2.1 id2 2 0 (by norm_num) hval⟩

/-- C5: for the empty portfolio, `totalValue` is 0, `expectedReturn` is 0,
and `varianceApprox` returns 0 for any matrix whatsoever, never an error. -/
theorem empty_portfolio_zero (corr : List (List ℚ)) :
    totalValue [] = 0 ∧ expectedReturn [] = 0 ∧ varianceApprox [] corr = .ok 0 := by
  refine ⟨rfl, ?_, ?_⟩
  · simp [expectedReturn, totalValue]
  · simp [varianceApprox]

/-- C1: for every sorted portfolio with at least one position and positive
total value, and every matrix the validator accepts, `varianceApprox` equals
the spec's double sum `Σᵢ Σⱼ wᵢ·wⱼ·C[i][j]·σᵢ·σⱼ` taken in ascending lexical
asset order with `wᵢ = valueᵢ / totalValue`; in the concrete AAPL/BOND
scenario with the 2x2 identity matrix the result is 0.010625. -/
theorem variance_is_spec_double_sum :
    (∀ (p : Entries) (corr : List (List ℚ)), PSorted p → p ≠ [] →
      0 < totalValue p → validateCorrelationMatrix corr p.length = .ok () →
      varianceApprox p corr = .ok (specVarianceSum p corr)) ∧
    varianceApprox demo id2 = .ok (0.010625 : ℚ) := by
  constructor
  · intro p corr hs hne htot hval
    unfold varianceApprox
    rw [if_neg (fun hh => hne (List.length_eq_zero.mp hh))]
    rw [hval]
    show (if totalValue p ≤ 0 then _ else _ : Except Err ℚ) = _
    rw [if_neg (not_le.mpr htot)]
    unfold specVarianceSum
    rw [sortEntries_eq_self hs]
    simp only [List.map_map]
    rfl
  · norm_num [varianceApprox, validateCorrelationMatrix, loopChecks, seqChecks,
      checkDiag, checkCell, mget, epsDiag, epsSym, totalValue, Position.value,
      demo, aapl, bond, id2, List.range_succ, Except.bind, Except.pure]

/-- Witness for C1: the general double-sum equality applied to the concrete
two-asset scenario, with every hypothesis discharged there. -/
theorem variance_is_spec_double_sum_witness :
    varianceApprox demo id2 = .ok (specVarianceSum demo id2) := by
  refine variance_is_spec_double_sum.1 demo id2 ?_ ?_ ?_ ?_
  · simp only [PSorted, demo, assetOrder, List.map_cons, List.map_nil]
    simp +decide
  · simp [demo]
  · norm_num [totalValue, demo, Position.value, aapl, bond]
  · norm_num [validateCorrelationMatrix, loopChecks, seqChecks, checkDiag,
      checkCell, mget, epsDiag, epsSym, demo, id2, List.range_succ, abs_of_nonneg]

/-- C2: for every portfolio and matrix, summing the variance contributions
gives exactly the variance: the two computations validate identically and,
when they succeed, `Σᵢ contribution[i] = variance` holds exactly in ℚ. -/
theorem contributions_sum_to_variance (p : Entries) (corr : List (List ℚ)) :
    (varianceContributionsApprox p corr).map List.sum = varianceApprox p corr := by
  unfold varianceContributionsApprox varianceApprox
  by_cases hn : p.length = 0
  · simp [hn, Except.map]
  · rw [if_neg hn, if_neg hn]
    cases hval : validateCorrelationMatrix corr p.length with
    | error e =>
      simp [hval, Except.map, Bind.bind, Except.bind]
    | ok u =>
      obtain rfl : u = () := rfl
      simp only [hval, Except.map, Bind.bind, Except.bind]
      by_cases htot : totalValue p ≤ 0
      · rw [if_pos htot, if_pos htot]
        simp [Except.map, pure, Except.pure]
      · rw [if_neg htot, if_neg htot]
        simp only [Except.map, pure, Except.pure, Except.ok.injEq]
        refine sum_map_congr _ _ _ (fun i _ => ?_)
        rw [← List.sum_map_mul_left]
        exact sum_map_congr _ _ _ (fun j _ => by ring)

/-- C3: `addPosition` rejects non-positive quantities; a fresh name creates a
new entry with the given quantity; a mu/sigma mismatch beyond the 1e-12
tolerance on an existing name is rejected; otherwise quantities sum and the
stored asset record, its price included, stays the existing one. -/
theorem addPosition_spec (p : Entries) (a : Asset) (q : ℚ) :
    (q ≤ 0 → addPosition p a q =
      (p, some (Err.invalidArgument "addPosition: quantity must be > 0."))) ∧
    (0 < q → findEntry p a.name = none →
      (addPosition p a q).2 = none ∧
      findEntry (addPosition p a q).1 a.name = some ⟨a, q⟩ ∧
      ∀ m, m ≠ a.name → findEntry (addPosition p a q).1 m = findEntry p m) ∧
    (∀ pos, 0 < q → findEntry p a.name = some pos →
      (epsParam < |pos.asset.mu - a.mu| ∨ epsParam < |pos.asset.sigma - a.sigma|) →
      addPosition p a q =
        (p, some (Err.invalidArgument
          "addPosition: asset parameters mismatch for same name (mu/sigma)."))) ∧
    (∀ pos, 0 < q → findEntry p a.name = some pos →
      |pos.asset.mu - a.mu| ≤ epsParam → |pos.asset.sigma - a.sigma| ≤ epsParam →
      (addPosition p a q).2 = none ∧
      findEntry (addPosition p a q).1 a.name = some ⟨pos.asset, pos.quantity + q⟩ ∧
      ∀ m, m ≠ a.name → findEntry (addPosition p a q).1 m = findEntry p m) := by
  refine ⟨?_, ?_, ?_, ?_⟩
  · intro hq
    unfold addPosition
    rw [if_pos hq]
  · intro hq hf
    unfold addPosition
    rw [if_neg (not_le.mpr hq), hf]
    exact ⟨rfl, findEntry_mapInsert_self p a.name _ hf,
      fun m hm => findEntry_mapInsert_ne p a.name m _ hm⟩
  · intro pos hq hf hmis
    unfold addPosition
    rw [if_neg (not_le.mpr hq), hf]
    dsimp only
    rw [if_pos hmis]
  · intro pos hq hf hmu hsig
    unfold addPosition
    rw [if_neg (not_le.mpr hq), hf]
    dsimp only
    rw [if_neg (show ¬(epsParam < |pos.asset.mu - a.mu| ∨ epsParam < |pos.asset.sigma - a.sigma|) by
      push_neg
      exact ⟨hmu, hsig⟩)]
    exact ⟨rfl, findEntry_mapUpdate_self hf,
      fun m hm => findEntry_mapUpdate_ne p a.name m _ hm⟩

/-- Witness for C3: re-adding AAPL at a later price with matching mu/sigma
sums the quantities and keeps the original asset record (price 200). -/
theorem addPosition_spec_witness :
    (addPosition demo aaplLater 5).2 = none ∧
    findEntry (addPosition demo aaplLater 5).1 "AAPL" = some ⟨aapl, 10 + 5⟩ ∧
    findEntry (addPosition demo aaplLater 5).1 "BOND" = findEntry demo "BOND" := by
  have h := (addPosition_spec demo aaplLater 5).2.2.2 ⟨aapl, 10⟩
    (by norm_num)
    (by simp [demo, findEntry, aaplLater])
    (by norm_num [aapl, aaplLater, epsParam])
    (by norm_num [aapl, aaplLater, epsParam])
  exact ⟨h.1, h.2.1, h.2.2 "BOND" (by simp [aaplLater])⟩

/-- C6: `removePosition` rejects non-positive quantities, reports NotFound
for an absent name, rejects removal beyond the stored quantity, and
otherwise decrements, deleting the entry (the size drops by exactly 1) when
the remaining quantity is ≤ 0. -/
theorem removePosition_spec (p : Entries) (n : String) (q : ℚ) :
    (q ≤ 0 → removePosition p n q =
      (p, some (Err.invalidArgument "removePosition: quantity must be > 0."))) ∧
    (0 < q → findEntry p n = none → removePosition p n q =
      (p, some (Err.notFound ("removePosition: asset not found: " ++ n)))) ∧
    (∀ pos, 0 < q → findEntry p n = some pos → pos.quantity < q →
      removePosition p n q =
        (p, some (Err.invalidArgument "removePosition: quantity exceeds current position."))) ∧
    (∀ pos, 0 < q → findEntry p n = some pos → q ≤ pos.quantity →
      (removePosition p n q).2 = none ∧
      (∀ m, m ≠ n → findEntry (removePosition p n q).1 m = findEntry p m) ∧
      (pos.quantity - q ≤ 0 →
        (removePosition p n q).1.length + 1 = p.length ∧
        ((assetOrder p).Nodup → findEntry (removePosition p n q).1 n = none)) ∧
      (0 < pos.quantity - q →
        findEntry (removePosition p n q).1 n = some ⟨pos.asset, pos.quantity - q⟩ ∧
        (removePosition p n q).1.length = p.length)) := by
  refine ⟨?_, ?_, ?_, ?_⟩
  · intro hq
    unfold removePosition
    rw [if_pos hq]
  · intro hq hf
    unfold removePosition
    rw [if_neg (not_le.mpr hq), hf]
  · intro pos hq hf hlt
    unfold removePosition
    rw [if_neg (not_le.mpr hq), hf]
    dsimp only
    rw [if_pos hlt]
  · intro pos hq hf hle
    unfold removePosition
    rw [if_neg (not_le.mpr hq), hf]
    dsimp only
    rw [if_neg (not_lt.mpr hle)]
    by_cases hz : pos.quantity - q ≤ 0
    · rw [if_pos hz]
      refine ⟨rfl, ?_, ?_, ?_⟩
      · intro m hm
        show findEntry (mapErase (mapUpdate p n _) n) m = findEntry p m
        rw [findEntry_mapErase_ne _ n m hm, findEntry_mapUpdate_ne p n m _ hm]
      · intro _
        constructor
        · show (mapErase (mapUpdate p n _) n).length + 1 = p.length
          rw [length_mapErase (findEntry_mapUpdate_self hf), length_mapUpdate]
        · intro hnd
          show findEntry (mapErase (mapUpdate p n _) n) n = none
          refine findEntry_mapErase_self ?_
          rw [assetOrder_mapUpdate]
          exact hnd
      · intro hpos
        exact absurd hz (not_le.mpr hpos)
    · rw [if_neg hz]
      refine ⟨rfl, ?_, ?_, ?_⟩
      · intro m hm
        exact findEntry_mapUpdate_ne p n m _ hm
      · intro hz2
        exact absurd hz2 hz
      · intro _
        exact ⟨findEntry_mapUpdate_self hf, length_mapUpdate p n _⟩

/-- Witness for C6: removing the full 10 AAPL deletes the entry and the size
drops from 2 to 1. -/
theorem removePosition_spec_witness :
    (removePosition demo "AAPL" 10).2 = none ∧
    (removePosition demo "AAPL" 10).1.length + 1 = demo.length ∧
    findEntry (removePosition demo "AAPL" 10).1 "AAPL" = none := by
  have h := (removePosition_spec demo "AAPL" 10).2.2.2 ⟨aapl, 10⟩
    (by norm_num)
    (by simp [demo, findEntry])
    (by norm_num)
  have h3 := h.2.2.1 (by norm_num)
  exact ⟨h.1, h3.1, h3.2 (by simp [demo, assetOrder])⟩

/-- C7: whenever `addPosition` or `removePosition` throws, the portfolio
state after the call is the state before it — every failure is
all-or-nothing. -/
theorem failed_mutation_leaves_portfolio_unchanged (p : Entries) (a : Asset)
    (n : String) (q r : ℚ) :
    ((addPosition p a q).2.isSome → (addPosition p a q).1 = p) ∧
    ((removePosition p n r).2.isSome → (removePosition p n r).1 = p) := by
  constructor
  · intro h
    unfold addPosition at h ⊢
    by_cases hq : q ≤ 0
    · rw [if_pos hq]
    · rw [if_neg hq] at h ⊢
      cases hf : findEntry p a.name with
      | none =>
        rw [hf] at h
        simp at h
      | some pos =>
        rw [hf] at h
        dsimp only at h ⊢
        by_cases hmis : epsParam < |pos.asset.mu - a.mu| ∨ epsParam < |pos.asset.sigma - a.sigma|
        · rw [if_pos hmis]
        · rw [if_neg hmis] at h
          simp at h
  · intro h
    unfold removePosition at h ⊢
    by_cases hq : r ≤ 0
    · rw [if_pos hq]
    · rw [if_neg hq] at h ⊢
      cases hf : findEntry p n with
      | none => rfl
      | some pos =>
        rw [hf] at h
        dsimp only at h ⊢
        by_cases hlt : pos.quantity < r
        · rw [if_pos hlt]
        · rw [if_neg hlt] at h
          by_cases hz : pos.quantity - r ≤ 0
          · rw [if_pos hz] at h
            simp at h
          · rw [if_neg hz] at h
            simp at h

/-- C8: every portfolio built through `addPosition` lists its asset names in
strictly ascending lexical order, and two portfolios built by any two
addition sequences that end with the same name set have identical
`assetOrder`. -/
theorem assetOrder_sorted_and_insertion_order_independent :
    (∀ (ops : List (Asset × ℚ)) (p : Entries), buildPortfolio ops = .ok p →
      List.Sorted (· < ·) (assetOrder p)) ∧
    (∀ (ops₁ ops₂ : List (Asset × ℚ)) (p₁ p₂ : Entries),
      buildPortfolio ops₁ = .ok p₁ → buildPortfolio ops₂ = .ok p₂ →
      (∀ m, m ∈ assetOrder p₁ ↔ m ∈ assetOrder p₂) →
      assetOrder p₁ = assetOrder p₂) := by
  have hsorted : ∀ (ops : List (Asset × ℚ)) (p : Entries),
      buildPortfolio ops = .ok p → List.Sorted (· < ·) (assetOrder p) := by
    intro ops p h
    exact buildAux_sorted ops [] p PSorted_nil h
  refine ⟨hsorted, ?_⟩
  intro ops₁ ops₂ p₁ p₂ h₁ h₂ hext
  haveI : IsAntisymm String (· < ·) := ⟨fun a b h1 h2 => absurd h2 (lt_asymm h1)⟩
  haveI : IsIrrefl String (· < ·) := ⟨lt_irrefl⟩
  have hs₁ := hsorted ops₁ p₁ h₁
  have hs₂ := hsorted ops₂ p₂ h₂
  exact List.eq_of_perm_of_sorted
    ((List.perm_ext_iff_of_nodup hs₁.nodup hs₂.nodup).mpr hext) hs₁ hs₂

/-- Witness for C8: adding AAPL then GOLD, or GOLD then AAPL, yields the
same lexically sorted asset order. -/
theorem assetOrder_sorted_and_insertion_order_independent_witness :
    ∃ p₁ p₂ : Entries,
      buildPortfolio [(aapl, 10), (gold, 4)] = .ok p₁ ∧
      buildPortfolio [(gold, 4), (aapl, 10)] = .ok p₂ ∧
      List.Sorted (· < ·) (assetOrder p₁) ∧ assetOrder p₁ = assetOrder p₂ := by
  have h₁ : buildPortfolio [(aapl, 10), (gold, 4)] =
      .ok [("AAPL", ⟨aapl, 10⟩), ("GOLD", ⟨gold, 4⟩)] := by
    simp +decide [buildPortfolio, addPositionE, addPosition, findEntry, mapInsert,
      aapl, gold, epsParam, Bind.bind, Except.bind, pure, Except.pure]
  have h₂ : buildPortfolio [(gold, 4), (aapl, 10)] =
      .ok [("AAPL", ⟨aapl, 10⟩), ("GOLD", ⟨gold, 4⟩)] := by
    simp +decide [buildPortfolio, addPositionE, addPosition, findEntry, mapInsert,
      aapl, gold, epsParam, Bind.bind, Except.bind, pure, Except.pure]
  refine ⟨_, _, h₁, h₂, ?_, ?_⟩
  · exact assetOrder_sorted_and_insertion_order_independent.1 _ _ h₁
  · refine assetOrder_sorted_and_insertion_order_independent.2 _ _ _ _ h₁ h₂ ?_
    intro m
    simp [assetOrder]

/-- C9: `operator+` is a copy of the left portfolio with every position of
the right applied through `addPosition` (first conjunct, definitional), so
on success: names absent from B keep A's entry, names absent from A receive
B's entry, and shared names pass the mu/sigma tolerance check and end with
A's asset record (price included) and the summed quantity. -/
theorem merge_equals_iterated_addPosition (A B P : Entries)
    (hkeys : ∀ e ∈ B, e.1 = e.2.asset.name)
    (hnd : (assetOrder B).Nodup)
    (hok : mergePortfolios A B = .ok P) :
    mergePortfolios A B =
      B.foldlM (fun out e => addPositionE out e.2.asset e.2.quantity) A ∧
    (∀ n, n ∉ assetOrder B → findEntry P n = findEntry A n) ∧
    (∀ n pb, findEntry B n = some pb → findEntry A n = none →
      findEntry P n = some pb) ∧
    (∀ n pa pb, findEntry A n = some pa → findEntry B n = some pb →
      |pa.asset.mu - pb.asset.mu| ≤ epsParam ∧
      |pa.asset.sigma - pb.asset.sigma| ≤ epsParam ∧
      findEntry P n = some ⟨pa.asset, pa.quantity + pb.quantity⟩) := by
  have hchar := mergeAux_char B A P hkeys hnd hok
  refine ⟨rfl, fun n => (hchar n).1, ?_, ?_⟩
  · intro n pb hpb hA
    exact ((hchar n).2 pb hpb).1 hA
  · intro n pa pb hpa hpb
    exact ((hchar n).2 pb hpb).2 pa hpa

/-- Witness for C9: merging the demo portfolio with one holding AAPL at a
later price plus GOLD keeps the original AAPL record at summed quantity,
leaves BOND untouched, and brings GOLD in. -/
theorem merge_equals_iterated_addPosition_witness :
    ∃ P : Entries, mergePortfolios demo demoB = .ok P ∧
      findEntry P "AAPL" = some ⟨aapl, 10 + 5⟩ ∧
      findEntry P "BOND" = findEntry demo "BOND" ∧
      findEntry P "GOLD" = some ⟨gold, 4⟩ := by
  have hok : mergePortfolios demo demoB =
      .ok [("AAPL", ⟨aapl, 10 + 5⟩), ("BOND", ⟨bond, 20⟩), ("GOLD", ⟨gold, 4⟩)] := by
    norm_num [mergePortfolios, addPositionE, addPosition, findEntry, mapInsert,
      mapUpdate, demo, demoB, aapl, bond, aaplLater, gold, epsParam,
      List.foldlM_cons, Bind.bind, Except.bind, pure, Except.pure]
    simp +decide
  have h := merge_equals_iterated_addPosition demo demoB _
    (by intro e he
        rcases List.mem_cons.mp he with rfl | he
        · rfl
        · rcases List.mem_cons.mp he with rfl | he
          · rfl
          · exact absurd he (List.not_mem_nil e))
    (by simp [demoB, assetOrder])
    hok
  refine ⟨_, hok, ?_, ?_, ?_⟩
  · have := h.2.2.2 "AAPL" ⟨aapl, 10⟩ ⟨aaplLater, 5⟩
      (by simp [demo, findEntry]) (by simp [demoB, findEntry])
    exact this.2.2
  · exact h.2.1 "BOND" (by simp [demoB, assetOrder])
  · exact h.2.2.1 "GOLD" ⟨gold, 4⟩
      (by simp [demoB, findEntry]) (by simp [demo, findEntry])

/-- C10: on a non-empty portfolio with zero total value, variance,
volatility and contributions validate the matrix first — an invalid matrix
raises InvalidArgument, and a valid one yields the degenerate 0 /
all-zero-vector result — whereas the empty portfolio returns 0 for any
matrix without validating it. -/
theorem zero_total_value_validates_first (p : Entries) (corr : List (List ℚ))
    (hne : p ≠ []) (htot : totalValue p = 0) :
    (∀ e, validateCorrelationMatrix corr p.length = .error e →
      varianceApprox p corr = .error e ∧
      volatilityApprox p corr = .error e ∧
      varianceContributionsApprox p corr = .error e) ∧
    (validateCorrelationMatrix corr p.length = .ok () →
      varianceApprox p corr = .ok 0 ∧
      volatilityApprox p corr = .ok 0 ∧
      varianceContributionsApprox p corr = .ok (List.replicate p.length 0)) ∧
    (∀ corr2 : List (List ℚ),
      varianceApprox ([] : Entries) corr2 = .ok 0 ∧
      volatilityApprox ([] : Entries) corr2 = .ok 0 ∧
      varianceContributionsApprox ([] : Entries) corr2 = .ok []) := by
  have hn : ¬p.length = 0 := fun hh => hne (List.length_eq_zero.mp hh)
  refine ⟨?_, ?_, ?_⟩
  · intro e hval
    have hvar : varianceApprox p corr = .error e := by
      unfold varianceApprox
      rw [if_neg hn]
      simp [hval, Bind.bind, Except.bind]
    refine ⟨hvar, ?_, ?_⟩
    · unfold volatilityApprox
      rw [hvar]
      rfl
    · unfold varianceContributionsApprox
      rw [if_neg hn]
      simp [hval, Bind.bind, Except.bind]
  · intro hval
    have hvar : varianceApprox p corr = .ok 0 := by
      unfold varianceApprox
      rw [if_neg hn, hval]
      show (if totalValue p ≤ 0 then _ else _ : Except Err ℚ) = _
      rw [if_pos (le_of_eq htot)]
      rfl
    refine ⟨hvar, ?_, ?_⟩
    · unfold volatilityApprox
      rw [hvar]
      simp [Except.map]
    · unfold varianceContributionsApprox
      rw [if_neg hn, hval]
      show (if totalValue p ≤ 0 then _ else _ : Except Err (List ℚ)) = _
      rw [if_pos (le_of_eq htot)]
      rfl
  · intro corr2
    refine ⟨by simp [varianceApprox], ?_, by simp [varianceContributionsApprox]⟩
    unfold volatilityApprox
    simp [varianceApprox, Except.map]

/-- Witness for C10: the one-asset zero-price portfolio rejects the matrix
`[[2]]` (bad diagonal) and returns variance 0 and contributions `[0]` for
the accepted `[[1]]`. -/
theorem zero_total_value_validates_first_witness :
    varianceApprox zeroPricePortfolio badDiagMatrix =
      .error (Err.invalidArgument "varianceApprox: correlation matrix diagonal must be 1.") ∧
    varianceApprox zeroPricePortfolio id1 = .ok 0 ∧
    varianceContributionsApprox zeroPricePortfolio id1 = .ok [0] := by
  have h := zero_total_value_validates_first zeroPricePortfolio badDiagMatrix
    (by simp [zeroPricePortfolio])
    (by norm_num [totalValue, zeroPricePortfolio, Position.value])
  have h2 := zero_total_value_validates_first zeroPricePortfolio id1
    (by simp [zeroPricePortfolio])
    (by norm_num [totalValue, zeroPricePortfolio, Position.value])
  have hbad : validateCorrelationMatrix badDiagMatrix zeroPricePortfolio.length =
      .error (Err.invalidArgument "varianceApprox: correlation matrix diagonal must be 1.") := by
    norm_num [validateCorrelationMatrix, loopChecks, seqChecks, checkDiag,
      checkCell, mget, epsDiag, epsSym, badDiagMatrix, zeroPricePortfolio,
      List.range_succ, abs_of_nonneg]
  have hgood : validateCorrelationMatrix id1 zeroPricePortfolio.length = .ok () := by
    norm_num [validateCorrelationMatrix, loopChecks, seqChecks, checkDiag,
      checkCell, mget, epsDiag, epsSym, id1, zeroPricePortfolio,
      List.range_succ, abs_of_nonneg]
  exact ⟨(h.1 _ hbad).1, (h2.2.1 hgood).1, (h2.2.1 hgood).2.2⟩

/-- Witness for C7: a rejected removal (quantity exceeds the stored 10) and
a rejected addition (non-positive quantity) both leave the demo portfolio
unchanged. -/
theorem failed_mutation_leaves_portfolio_unchanged_witness :
    (removePosition demo "AAPL" 11).1 = demo ∧ (addPosition demo aapl 0).1 = demo := by
  constructor
  · refine (failed_mutation_leaves_portfolio_unchanged demo aapl "AAPL" 0 11).2 ?_
    simp [removePosition, findEntry, demo, aapl]
    norm_num
  · refine (failed_mutation_leaves_portfolio_unchanged demo aapl "AAPL" 0 11).1 ?_
    simp [addPosition]

end PortfolioCore
